import Mathlib

/-!
Shallow embedding of `dolfinx_mpc`: the MPC verification utilities
(`dolfinx_mpc/utils/test.py`) and the constrained linear problem
(`dolfinx_mpc/problem.py`).

Conventions of the embedding:
* machine integers are `Nat`; PETSc scalars are `ℚ` (the code is agnostic in
  the scalar type; tolerance comparisons are exact arithmetic over `ℚ`);
* the MPI communicator is a list of per-process data records; `allgather`
  is the list of every process's contribution, `gather`-then-use-on-root is
  modelled by computing the gathered value (the root branch is the only one
  that produces a value);
* numpy fancy indexing `arr[idx]` is `idx.map (arr.getD · 0)`;
* a scipy `coo_matrix((vals, (rows, cols))).tocsr()` is modelled by its entry
  function (duplicate triples are summed) together with its inferred shape
  (max row index + 1, max column index + 1).
-/

/-- Per-process view of a finalized `MultiPointConstraint`, as consumed by
`gather_transformation_matrix` (utils/test.py lines 57-125):
`constraint.slaves()`, `constraint.masters().array`, `constraint.coefficients()[0]`,
`constraint.masters().offsets`, the index map's `local_to_global` on blocks,
the dofmap block size, and the owned block range `index_map.local_range`. -/
structure Proc where
  blockSize : Nat
  numLocalSlaves : Nat
  slaves : List Nat
  mastersArray : List Nat
  coeffs : List ℚ
  offsets : List Nat
  localToGlobal : Nat → Nat
  localRangeLo : Nat
  localRangeHi : Nat

/-- Local dof to global dof: `imap.local_to_global(d // bs) * bs + d % bs`
(the `slave_blocks` / `slave_rems` and `master_blocks` / `master_rems`
computations of utils/test.py lines 84-86 and 91-92). -/
def globOf (p : Proc) (d : Nat) : Nat :=
  p.localToGlobal (d / p.blockSize) * p.blockSize + d % p.blockSize

/-- One process's locally-owned slaves in global numbering
(`glob_slaves` of utils/test.py lines 82-88; `num_local_slaves = 0` gives
the empty array, and `take` of 0 is `[]`). -/
def globSlaves (p : Proc) : List Nat :=
  (p.slaves.take p.numLocalSlaves).map (globOf p)

/-- The allgathered global slave list `all_slaves = hstack(allgather(glob_slaves))`
(utils/test.py line 89); also the body of `_gather_slaves_global`
(utils/test.py lines 39-54), which performs the same computation. -/
def allSlaves (ps : List Proc) : List Nat :=
  (ps.map globSlaves).flatten

/-- The column shift `count = sum(x > all_slaves)`: the number of global slave
indices strictly below `x` (utils/test.py lines 103 and 116). -/
def countBelow (ps : List Proc) (x : Nat) : Nat :=
  (allSlaves ps).countP (fun s => decide (s < x))

/-- The shifted column index `x - count` used for both master columns and
identity columns (utils/test.py lines 106 and 116). -/
def shiftedCol (ps : List Proc) (x : Nat) : Nat :=
  x - countBelow ps x

/-- The (global master, coefficient) pairs of the slave with local dof index `s`:
`masters_index = local_to_global(master_blocks[offsets[s]:offsets[s+1]]) * bs
+ master_rems[offsets[s]:offsets[s+1]]` zipped with
`coeffs[offsets[s]:offsets[s+1]]` (utils/test.py lines 99-102; note the
source indexes `offsets` by the slave's local dof index `s` itself). -/
def mastersOf (p : Proc) (s : Nat) : List (Nat × ℚ) :=
  let o1 := p.offsets.getD s 0
  let o2 := p.offsets.getD (s + 1) 0
  (((p.mastersArray.drop o1).take (o2 - o1)).map (globOf p)).zip
    ((p.coeffs.drop o1).take (o2 - o1))

/-- The `(value, row, col)` triples a process appends for its local slaves:
for each `(slave, global_slave)` in `zip(slaves, glob_slaves)` and each
`(master, coeff)` pair, the triple `(coeff, global_slave, master - count)`
(utils/test.py lines 98-106). -/
def slaveTriples (ps : List Proc) (p : Proc) : List (ℚ × Nat × Nat) :=
  (((p.slaves.take p.numLocalSlaves).zip (globSlaves p)).map fun sg =>
    (mastersOf p sg.1).map fun mc => (mc.2, sg.2, mc.1 - countBelow ps mc.1)).flatten

/-- The owned global dofs `arange(l_range[0] * bs, l_range[1] * bs)`
(utils/test.py lines 109-110). -/
def globalDofs (p : Proc) : List Nat :=
  List.range' (p.localRangeLo * p.blockSize)
    (p.localRangeHi * p.blockSize - p.localRangeLo * p.blockSize)

/-- The identity triples `(1, dof, dof - count)` appended for every owned
global dof that is not one of this process's slaves (`is_slave` is membership
in the process-local `glob_slaves`; utils/test.py lines 111-116). -/
def identityTriples (ps : List Proc) (p : Proc) : List (ℚ × Nat × Nat) :=
  (globalDofs p).filterMap fun dof =>
    if dof ∈ globSlaves p then none
    else some (1, dof, dof - countBelow ps dof)

/-- All triples one process contributes, in source order: slave entries
first (lines 98-106), then identity entries (lines 112-116). -/
def procTriples (ps : List Proc) (p : Proc) : List (ℚ × Nat × Nat) :=
  slaveTriples ps p ++ identityTriples ps p

/-- The gathered triples `hstack(K_vals), hstack(rows_g), hstack(cols_g)`
on the root process (utils/test.py lines 119-124). -/
def allTriples (ps : List Proc) : List (ℚ × Nat × Nat) :=
  (ps.map (procTriples ps)).flatten

/-- Entry `(r, c)` of the sparse matrix a triple list denotes: scipy's
`coo_matrix(...).tocsr()` sums duplicate triples. -/
def entrySum (l : List (ℚ × Nat × Nat)) (r c : Nat) : ℚ :=
  ((l.filter fun t => t.2.1 == r && t.2.2 == c).map fun t => t.1).sum

/-- Entry `(r, c)` of the transformation matrix `K` built by
`gather_transformation_matrix` on the root process. -/
def K_entry (ps : List Proc) (r c : Nat) : ℚ :=
  entrySum (allTriples ps) r c

/-- Row count of `K`: scipy infers the shape of a `coo_matrix` from the
maximal row index (+1); an empty triple list gives an empty matrix. -/
def K_rows (ps : List Proc) : Nat :=
  if allTriples ps = [] then 0
  else ((allTriples ps).map fun t => t.2.1).foldr max 0 + 1

/-- Column count of `K`: maximal column index + 1 (empty matrix for no
triples). -/
def K_cols (ps : List Proc) : Nat :=
  if allTriples ps = [] then 0
  else ((allTriples ps).map fun t => t.2.2).foldr max 0 + 1

/-- The weighted sum the spec prescribes for a slave row: the sum of the
slave's coefficients whose master column, shifted by the count of slaves
below the master, lands at column `c`. -/
def masterColSum (ps : List Proc) (p : Proc) (s c : Nat) : ℚ :=
  (((mastersOf p s).filter fun mc => mc.1 - countBelow ps mc.1 == c).map
    fun mc => mc.2).sum

/-- Well-formedness of a finalized constraint spread over the processes of
the communicator, for a global index space of `N` dofs: the owned ranges
cover the index space and are pairwise disjoint, global slave indices are
distinct, each process's slaves are locally owned, masters are valid
non-slave global dofs, every slave has at least one master, and at least one
dof is not a slave. -/
def ProcWF (ps : List Proc) (N : Nat) : Prop :=
  (∀ d < N, ∃ p ∈ ps, d ∈ globalDofs p) ∧
  (∀ p ∈ ps, ∀ d ∈ globalDofs p, d < N) ∧
  List.Pairwise (fun p q => ∀ d ∈ globalDofs p, d ∉ globalDofs q) ps ∧
  (allSlaves ps).Nodup ∧
  (∀ p ∈ ps, ∀ g ∈ globSlaves p, g ∈ globalDofs p) ∧
  (∀ p ∈ ps, ∀ s ∈ p.slaves.take p.numLocalSlaves,
    ∀ mc ∈ mastersOf p s, mc.1 < N ∧ mc.1 ∉ allSlaves ps) ∧
  (∀ p ∈ ps, ∀ s ∈ p.slaves.take p.numLocalSlaves, mastersOf p s ≠ []) ∧
  (∃ d < N, d ∉ allSlaves ps)

/-- The 3-dof single-process constraint of the spec's testable property 2:
`slaves = [0]`, `masters = [1]`, `coeffs = [2.0]`, `offsets = [0, 1]`,
block size 1, serial ownership of all three dofs. -/
def exProc : Proc :=
  { blockSize := 1
    numLocalSlaves := 1
    slaves := [0]
    mastersArray := [1]
    coeffs := [2]
    offsets := [0, 1]
    localToGlobal := fun b => b
    localRangeLo := 0
    localRangeHi := 3 }

/-- The serial communicator holding `exProc`. -/
def exPs : List Proc := [exProc]

/-- Per-process view of a distributed PETSc vector: the owned index range
`vector.owner_range` and the owned local values `vector.array`. -/
structure VProc where
  lo : Nat
  hi : Nat
  arr : List ℚ

/-- A distributed PETSc vector: its global size and the per-process owned
pieces (in rank order). -/
structure DVec where
  size : Nat
  procs : List VProc

/-- One process's `numpy_vec`: a zero array of global size whose owned range
`[l_min, l_max)` is filled (`+=`) with the local values (utils/test.py
lines 163-166). -/
def perProcArray (n : Nat) (q : VProc) : List ℚ :=
  (List.range n).map fun i =>
    if q.lo ≤ i ∧ i < q.hi then q.arr.getD (i - q.lo) 0 else 0

/-- Elementwise numpy addition of two equal-length arrays. -/
def addVec (xs ys : List ℚ) : List ℚ :=
  List.zipWith (fun a b => a + b) xs ys

/-- `gather_PETScVector` (utils/test.py lines 158-168): every process builds
its `numpy_vec` and the results of the `allgather` are summed elementwise
(`numpy_vec = sum(MPI.COMM_WORLD.allgather(numpy_vec))`).  The `root`
parameter is accepted but never read by the source. -/
def gather_PETScVector (v : DVec) (root : Nat) : List ℚ :=
  (v.procs.map (perProcArray v.size)).foldl addVec (List.replicate v.size 0)

/-- Well-formedness of a distributed vector: each owned range is an interval
inside the global index space whose length matches the local array, the
ranges cover the index space, and they are pairwise disjoint. -/
def vecWF (v : DVec) : Prop :=
  (∀ q ∈ v.procs, q.lo ≤ q.hi ∧ q.hi ≤ v.size ∧ q.arr.length = q.hi - q.lo) ∧
  (∀ i < v.size, ∃ q ∈ v.procs, q.lo ≤ i ∧ i < q.hi) ∧
  List.Pairwise (fun a b => b.hi ≤ a.lo ∨ a.hi ≤ b.lo) v.procs

/-- Default absolute tolerance of `numpy.allclose` (1e-08), exactly. -/
def atol_np : ℚ := 1 / 100000000

/-- Default relative tolerance of `numpy.allclose` (1e-05), exactly. -/
def rtol_np : ℚ := 1 / 100000

/-- `numpy.allclose(xs, ys)` with its default tolerances: every pair
satisfies `|a - b| <= atol + rtol * |b|`. -/
def allclose (xs ys : List ℚ) : Bool :=
  (xs.zip ys).all fun ab => decide (|ab.1 - ab.2| ≤ atol_np + rtol_np * |ab.2|)

/-- `cols_except_slaves = flatnonzero(isin(arange(n), glob_slaves,
invert=True))` (utils/test.py lines 223-224). -/
def colsExceptSlaves (ps : List Proc) (n : Nat) : List Nat :=
  (List.range n).filter fun c => decide (c ∉ allSlaves ps)

/-- `reduced_b = K.T @ b_org_np` (utils/test.py line 221): entry `j` is the
dot product of column `j` of `K` with the gathered original vector. -/
def reduced_b (ps : List Proc) (borg : List ℚ) : List ℚ :=
  (List.range (K_cols ps)).map fun j =>
    ((List.range (K_rows ps)).map fun r => K_entry ps r j * borg.getD r 0).sum

/-- The root branch of `compare_MPC_RHS` (utils/test.py lines 210-226) as a
boolean: `true` means both `assert np.allclose(...)` statements pass (the
call returns), `false` means an assertion failure is raised.  `n` is the
global dof count `size_global * index_map_bs` of the constraint's space. -/
def compare_MPC_RHS (ps : List Proc) (n : Nat) (b_org b : DVec) (root : Nat) : Bool :=
  let glob_slaves := allSlaves ps
  let b_np := gather_PETScVector b root
  let reduced := reduced_b ps (gather_PETScVector b_org root)
  let cols := colsExceptSlaves ps n
  allclose (glob_slaves.map fun i => b_np.getD i 0)
      (List.replicate glob_slaves.length 0) &&
    allclose (cols.map fun i => b_np.getD i 0) reduced

/-- The four concrete assembler functions the fixture can return. -/
inductive AssemblerFn
  | numbaMatrix
  | numbaVector
  | cppMatrix
  | cppVector
deriving DecidableEq

/-- Outcome of the `get_assemblers` fixture: a returned
`(assemble_matrix, assemble_vector)` pair, a `pytest.skip`, or a raised
`RuntimeError` carrying its message. -/
inductive AssemblerResult
  | assemblers (mat vec : AssemblerFn)
  | skipped (msg : String)
  | errorUndefined (msg : String)
deriving DecidableEq

/-- `get_assemblers` (utils/test.py lines 19-36): `request.param` selects the
backend; requesting `numba` when the `numba` module is absent skips the test;
an unrecognized name raises `RuntimeError` naming the two valid options. -/
def get_assemblers (param : String) (numbaInstalled : Bool) : AssemblerResult :=
  if param = "numba" then
    if numbaInstalled then AssemblerResult.assemblers AssemblerFn.numbaMatrix AssemblerFn.numbaVector
    else AssemblerResult.skipped ("Numba not installed")
  else if param = "C++" then
    AssemblerResult.assemblers AssemblerFn.cppMatrix AssemblerFn.cppVector
  else
    AssemblerResult.errorUndefined
      ("Undefined assembler type: " ++ param ++ ".\nOptions are numba or C++")

/-- Observable external calls made by `LinearProblem.__init__` and
`LinearProblem.solve` (problem.py), in the order the source performs them. -/
inductive Effect
  | compileForm
  | createFunction
  | createSparsityPattern
  | finalizePattern
  | createMatrix
  | createVector
  | createSolver
  | setSolverOperators
  | setSolverOptions
  | zeroMatrixEntries
  | assembleMatrixMPC
  | finalizeMatrix
  | zeroVectorLocal
  | assembleVectorMPC
  | applyLifting
  | ghostUpdateAddReverse
  | setBCValues
  | solverSolve
  | scatterForward
  | backSubstitution
deriving DecidableEq

/-- The `MultiPointConstraint` as `LinearProblem` consumes it: its
`finalized` flag and the identity of its `function_space` (the source
compares spaces with `is`, so a space is modelled by its object id). -/
structure MPC where
  finalized : Bool
  spaceId : Nat
deriving DecidableEq

/-- A `dolfinx.fem.Function`: the identity of the space it lives on, and its
own object id. -/
structure FemFunction where
  spaceId : Nat
  fid : Nat
deriving DecidableEq

/-- Errors `LinearProblem.__init__` raises: `RuntimeError` for an
unfinalized constraint (InvalidState), `ValueError` for a solution function
on the wrong space (InvalidInput). -/
inductive PError
  | invalidState
  | invalidInput
deriving DecidableEq

/-- Symbolic contents of the system matrix: each constructor records one
mutation `solve` applies. -/
inductive MatVal
  | fresh
  | zeroed (m : MatVal)
  | mpcAssembled (m : MatVal)
  | finalizedMat (m : MatVal)
deriving DecidableEq

/-- Symbolic contents of the right-hand-side vector. -/
inductive VecVal
  | fresh
  | zeroedLocal (v : VecVal)
  | mpcAssembled (v : VecVal)
  | lifted (v : VecVal)
  | ghostAccumulated (v : VecVal)
  | bcValuesSet (v : VecVal)
deriving DecidableEq

/-- Symbolic contents of the solution function's vector. -/
inductive SolVal
  | initial
  | solvedWith (A : MatVal) (b : VecVal)
  | scattered (u : SolVal)
  | backSubstituted (u : SolVal)
deriving DecidableEq

/-- The mutable numeric contents of the system: matrix entries, vector
entries, and the solution values.  `solve` mutates exactly these. -/
structure SysVals where
  matVal : MatVal
  vecVal : VecVal
  uVal : SolVal
deriving DecidableEq

/-- The state of a constructed `LinearProblem`: the solution function
`self.u`, the constraint, the boundary conditions, the object ids of
`self._A`, `self._b`, `self._solver`, and the symbolic contents of the
matrix, vector and solution. -/
structure ProblemState where
  u : FemFunction
  mpc : MPC
  bcs : List Nat
  matId : Nat
  vecId : Nat
  solverId : Nat
  vals : SysVals
deriving DecidableEq

/-- The allocation calls of `LinearProblem.__init__` after the solution
function exists (problem.py lines 93-116): sparsity pattern creation and
finalization, matrix creation, vector creation, solver creation, operator
binding, and option configuration. -/
def allocEffects : List Effect :=
  [Effect.createSparsityPattern, Effect.finalizePattern, Effect.createMatrix,
    Effect.createVector, Effect.createSolver, Effect.setSolverOperators,
    Effect.setSolverOptions]

/-- The state `__init__` leaves behind on success: fresh object ids for the
matrix, vector and solver drawn from the allocator. -/
def mkState (mpc : MPC) (uf : FemFunction) (bcs : List Nat) (alloc : Nat) : ProblemState :=
  { u := uf
    mpc := mpc
    bcs := bcs
    matId := alloc + 1
    vecId := alloc + 2
    solverId := alloc + 3
    vals := { matVal := MatVal.fresh, vecVal := VecVal.fresh, uVal := SolVal.initial } }

/-- `LinearProblem.__init__` (problem.py lines 67-116): compiles the two
forms, then checks the finalized flag (raising `RuntimeError` if unset),
then validates or creates the solution function (raising `ValueError` for a
function on a foreign space), then allocates pattern, matrix, vector and
solver.  Returns the effect trace together with the outcome; `alloc` seeds
fresh object ids. -/
def LinearProblem_init (mpc : MPC) (uArg : Option FemFunction) (bcs : List Nat)
    (alloc : Nat) : List Effect × Except PError ProblemState :=
  let tr := [Effect.compileForm, Effect.compileForm]
  if mpc.finalized = false then
    (tr, Except.error PError.invalidState)
  else
    match uArg with
    | some uf =>
      if uf.spaceId = mpc.spaceId then
        (tr ++ allocEffects, Except.ok (mkState mpc uf bcs alloc))
      else
        (tr, Except.error PError.invalidInput)
    | none =>
      (tr ++ [Effect.createFunction] ++ allocEffects,
        Except.ok (mkState mpc ⟨mpc.spaceId, alloc⟩ bcs alloc))

/-- `self._A.zeroEntries()` (problem.py line 125). -/
def stepZeroMat (sv : SysVals) : SysVals × Effect :=
  ({ sv with matVal := MatVal.zeroed sv.matVal }, Effect.zeroMatrixEntries)

/-- `assemble_matrix(self._a, self._mpc, bcs=self.bcs, A=self._A)`
(problem.py line 126). -/
def stepAssembleMat (sv : SysVals) : SysVals × Effect :=
  ({ sv with matVal := MatVal.mpcAssembled sv.matVal }, Effect.assembleMatrixMPC)

/-- `self._A.assemble()` (problem.py line 127). -/
def stepFinalizeMat (sv : SysVals) : SysVals × Effect :=
  ({ sv with matVal := MatVal.finalizedMat sv.matVal }, Effect.finalizeMatrix)

/-- `with self._b.localForm() as b_loc: b_loc.set(0)` (problem.py
lines 131-132). -/
def stepZeroVec (sv : SysVals) : SysVals × Effect :=
  ({ sv with vecVal := VecVal.zeroedLocal sv.vecVal }, Effect.zeroVectorLocal)

/-- `assemble_vector(self._L, self._mpc, b=self._b)` (problem.py line 133). -/
def stepAssembleVec (sv : SysVals) : SysVals × Effect :=
  ({ sv with vecVal := VecVal.mpcAssembled sv.vecVal }, Effect.assembleVectorMPC)

/-- `apply_lifting(self._b, [self._a], [self.bcs], self._mpc)` (problem.py
line 136). -/
def stepLifting (sv : SysVals) : SysVals × Effect :=
  ({ sv with vecVal := VecVal.lifted sv.vecVal }, Effect.applyLifting)

/-- `self._b.ghostUpdate(addv=ADD, mode=REVERSE)` (problem.py line 137). -/
def stepGhostUpdate (sv : SysVals) : SysVals × Effect :=
  ({ sv with vecVal := VecVal.ghostAccumulated sv.vecVal }, Effect.ghostUpdateAddReverse)

/-- `set_bc(self._b, self.bcs)` (problem.py line 138). -/
def stepSetBC (sv : SysVals) : SysVals × Effect :=
  ({ sv with vecVal := VecVal.bcValuesSet sv.vecVal }, Effect.setBCValues)

/-- `self._solver.solve(self._b, self._x)` (problem.py line 141). -/
def stepSolve (sv : SysVals) : SysVals × Effect :=
  ({ sv with uVal := SolVal.solvedWith sv.matVal sv.vecVal }, Effect.solverSolve)

/-- `self.u.x.scatter_forward()` (problem.py line 142). -/
def stepScatter (sv : SysVals) : SysVals × Effect :=
  ({ sv with uVal := SolVal.scattered sv.uVal }, Effect.scatterForward)

/-- `self._mpc.backsubstitution(self.u)` (problem.py line 143). -/
def stepBacksub (sv : SysVals) : SysVals × Effect :=
  ({ sv with uVal := SolVal.backSubstituted sv.uVal }, Effect.backSubstitution)

/-- `LinearProblem.solve` (problem.py lines 118-145): threads the state
through the eleven statements in source order, recording each one's
effect, and returns `self.u` (line 145) together with the final state and
the effect trace. -/
def LinearProblem_solve (st : ProblemState) : ProblemState × List Effect × FemFunction :=
  let a1 := stepZeroMat st.vals
  let a2 := stepAssembleMat a1.1
  let a3 := stepFinalizeMat a2.1
  let a4 := stepZeroVec a3.1
  let a5 := stepAssembleVec a4.1
  let a6 := stepLifting a5.1
  let a7 := stepGhostUpdate a6.1
  let a8 := stepSetBC a7.1
  let a9 := stepSolve a8.1
  let a10 := stepScatter a9.1
  let a11 := stepBacksub a10.1
  let st1 := { st with vals := a11.1 }
  (st1, [a1.2, a2.2, a3.2, a4.2, a5.2, a6.2, a7.2, a8.2, a9.2, a10.2, a11.2], st1.u)

/-- The state transformer of one `solve()` call. -/
def solveState (st : ProblemState) : ProblemState :=
  (LinearProblem_solve st).1

/-- A 2-dof single-process constraint with no slaves (its `K` is the 2×2
identity). -/
def procNS : Proc :=
  { blockSize := 1
    numLocalSlaves := 0
    slaves := []
    mastersArray := []
    coeffs := []
    offsets := []
    localToGlobal := fun b => b
    localRangeLo := 0
    localRangeHi := 2 }

/-- The serial communicator holding `procNS`. -/
def psNS : List Proc := [procNS]

/-- The serial 2-entry unconstrained right-hand side `[1, 0]`. -/
def bOrgEx : DVec :=
  { size := 2, procs := [{ lo := 0, hi := 2, arr := [1, 0] }] }

/-- The serial 2-entry MPC right-hand side `[1 + 2e-8, 0]`: its first entry
deviates from the reference by `2e-8`, more than `numpy.allclose`'s
absolute tolerance `1e-8` but within the relative slack `1e-5 * 1`. -/
def bDevEx : DVec :=
  { size := 2, procs := [{ lo := 0, hi := 2, arr := [1 + 2 / 100000000, 0] }] }

/-- The serial 3-entry zero vector over the 3-dof example constraint. -/
def zeroVec3 : DVec :=
  { size := 3, procs := [{ lo := 0, hi := 3, arr := [0, 0, 0] }] }

/-- The gathered triple list of the example constraint, computed: the slave
row contributes `(2, 0, 0)`, the identity rows contribute `(1, 1, 0)` and
`(1, 2, 1)`. -/
theorem exPs_allTriples :
    allTriples exPs = [(2, 0, 0), (1, 1, 0), (1, 2, 1)] := by
  simp [allTriples, exPs, procTriples, slaveTriples, identityTriples,
    globalDofs, globSlaves, mastersOf, countBelow, allSlaves, globOf, exProc,
    List.range']

/-- C1: the claim as frozen states that `K` for the example constraint has
rows (in order of global dof 0, 1, 2) `[2,0]`, `[0,1]`, `[1,0]`.  This is
false on the code: the identity entry of global dof 1 is placed at column
`1 - (count of slaves below 1) = 0`, so row 1 is `[1,0]` and row 2 is
`[0,1]`. -/
theorem C1_example_matrix_counterexample :
    ¬ (K_rows exPs = 3 ∧ K_cols exPs = 2 ∧
      K_entry exPs 0 0 = 2 ∧ K_entry exPs 0 1 = 0 ∧
      K_entry exPs 1 0 = 0 ∧ K_entry exPs 1 1 = 1 ∧
      K_entry exPs 2 0 = 1 ∧ K_entry exPs 2 1 = 0) := by
  intro h
  have h10 := h.2.2.2.2.1
  rw [K_entry, exPs_allTriples] at h10
  simp [entrySum] at h10

/-- C1 amended: `gather_transformation_matrix` on the example constraint
produces the 3×2 matrix whose rows, in order of global dof 0, 1, 2, are
`[2,0]`, `[1,0]`, `[0,1]`. -/
theorem C1_example_matrix_amended :
    K_rows exPs = 3 ∧ K_cols exPs = 2 ∧
    K_entry exPs 0 0 = 2 ∧ K_entry exPs 0 1 = 0 ∧
    K_entry exPs 1 0 = 1 ∧ K_entry exPs 1 1 = 0 ∧
    K_entry exPs 2 0 = 0 ∧ K_entry exPs 2 1 = 1 := by
  refine ⟨?_, ?_, ?_, ?_, ?_, ?_, ?_, ?_⟩ <;>
    simp [K_rows, K_cols, K_entry, exPs_allTriples, entrySum]

/-- Splitting the sparse-entry sum over a concatenation of triple lists. -/
theorem entrySum_append (l1 l2 : List (ℚ × Nat × Nat)) (r c : Nat) :
    entrySum (l1 ++ l2) r c = entrySum l1 r c + entrySum l2 r c := by
  simp [entrySum, List.filter_append]

/-- Splitting the sparse-entry sum over a flattened list of triple lists. -/
theorem entrySum_flatten (L : List (List (ℚ × Nat × Nat))) (r c : Nat) :
    entrySum L.flatten r c = (L.map fun l => entrySum l r c).sum := by
  induction L with
  | nil => simp [entrySum]
  | cons a t ih => simp [List.flatten_cons, entrySum_append, ih]

/-- A triple list none of whose rows is `r` contributes nothing to row `r`. -/
theorem entrySum_eq_zero {l : List (ℚ × Nat × Nat)} {r : Nat}
    (h : ∀ t ∈ l, t.2.1 ≠ r) (c : Nat) : entrySum l r c = 0 := by
  have hf : l.filter (fun t => t.2.1 == r && t.2.2 == c) = [] := by
    rw [List.filter_eq_nil_iff]
    intro t ht
    simp [h t ht]
  simp [entrySum, hf]

/-- Peeling one triple off the sparse-entry sum. -/
theorem entrySum_cons (t : ℚ × Nat × Nat) (l : List (ℚ × Nat × Nat)) (r c : Nat) :
    entrySum (t :: l) r c =
      (if t.2.1 = r ∧ t.2.2 = c then t.1 else 0) + entrySum l r c := by
  by_cases h1 : t.2.1 = r <;> by_cases h2 : t.2.2 = c <;>
    simp [entrySum, List.filter_cons, h1, h2]

/-- Zipping a list with its own image lists the graph of the function. -/
theorem zip_self_map {α β : Type} (l : List α) (g : α → β) :
    l.zip (l.map g) = l.map fun x => (x, g x) := by
  induction l with
  | nil => rfl
  | cons a t ih => simp [ih]

/-- The sparse-entry sum of the identity-entry `filterMap` over a
duplicate-free dof list: row `r` holds exactly one entry, the value 1 at
column `g r`. -/
theorem entrySum_filterMap_ite (g : Nat → Nat) (Q : Nat → Prop) [DecidablePred Q]
    (l : List Nat) (hnd : l.Nodup) (r : Nat) (hr : r ∈ l) (hQr : ¬ Q r) (c : Nat) :
    entrySum (l.filterMap fun d => if Q d then none else some ((1 : ℚ), d, g d)) r c
      = if c = g r then 1 else 0 := by
  induction l with
  | nil => cases hr
  | cons a t ih =>
    have hnda := (List.nodup_cons.mp hnd).1
    have hndt := (List.nodup_cons.mp hnd).2
    rcases List.mem_cons.mp hr with rfl | hrt
    · have hzero :
          entrySum (t.filterMap fun d => if Q d then none else some ((1 : ℚ), d, g d)) r c = 0 := by
        refine entrySum_eq_zero (fun tr htr hEq => ?_) c
        rcases List.mem_filterMap.mp htr with ⟨d, hd, hsome⟩
        by_cases hQd : Q d
        · rw [if_pos hQd] at hsome
          cases hsome
        · rw [if_neg hQd] at hsome
          have h3 : d = tr.2.1 := by
            rw [← Option.some.inj hsome]
          exact hnda ((h3.trans hEq) ▸ hd)
      rw [List.filterMap_cons, if_neg hQr, entrySum_cons, hzero, add_zero]
      by_cases hc : c = g r
      · subst hc
        simp
      · have h1 : ¬ (g r = c) := fun h => hc h.symm
        simp [h1, hc]
    · have har : a ≠ r := fun hh => hnda (hh ▸ hrt)
      by_cases hQa : Q a
      · rw [List.filterMap_cons, if_pos hQa]
        exact ih hndt hrt
      · rw [List.filterMap_cons, if_neg hQa, entrySum_cons]
        have h0 : ¬ (((1 : ℚ), a, g a).2.1 = r ∧ ((1 : ℚ), a, g a).2.2 = c) :=
          fun h => har h.1
        rw [if_neg h0, zero_add]
        exact ih hndt hrt

/-- Summing an indicator selection over a list whose images under `f` are
pairwise distinct: only the selected element contributes. -/
theorem sum_ite_unique {α : Type} (f : α → Nat) (F : α → ℚ) (l : List α)
    (hnd : (l.map f).Nodup) (s : α) (hs : s ∈ l) :
    (l.map fun x => if f x = f s then F x else 0).sum = F s := by
  induction l with
  | nil => cases hs
  | cons a t ih =>
    have hfa : f a ∉ t.map f := (List.nodup_cons.mp hnd).1
    have hndt : (t.map f).Nodup := (List.nodup_cons.mp hnd).2
    rcases List.mem_cons.mp hs with rfl | hst
    · have hz : (t.map fun x => if f x = f s then F x else 0).sum = 0 := by
        apply List.sum_eq_zero
        intro y hy
        rcases List.mem_map.mp hy with ⟨x, hx, rfl⟩
        have hne : f x ≠ f s := fun hh => hfa (hh ▸ List.mem_map_of_mem f hx)
        simp [hne]
      simp [hz]
    · have hfas : f a ≠ f s := fun hh => hfa (hh ▸ List.mem_map_of_mem f hst)
      simp only [List.map_cons, List.sum_cons, hfas, if_false, zero_add]
      exact ih hndt hst

/-- Every row index appearing in a process's slave triples is one of that
process's global slaves. -/
theorem slaveTriples_row {ps : List Proc} {p : Proc} {t : ℚ × Nat × Nat}
    (ht : t ∈ slaveTriples ps p) : t.2.1 ∈ globSlaves p := by
  rcases List.mem_flatten.mp ht with ⟨l, hl, htl⟩
  rcases List.mem_map.mp hl with ⟨sg, hsg, rfl⟩
  rcases List.mem_map.mp htl with ⟨mc, _, rfl⟩
  exact (List.of_mem_zip hsg).2

/-- Every identity triple of a process sits on an owned dof that is not one
of the process's slaves. -/
theorem identityTriples_row {ps : List Proc} {p : Proc} {t : ℚ × Nat × Nat}
    (ht : t ∈ identityTriples ps p) :
    t.2.1 ∈ globalDofs p ∧ t.2.1 ∉ globSlaves p := by
  rcases List.mem_filterMap.mp ht with ⟨d, hd, hsome⟩
  by_cases hmem : d ∈ globSlaves p
  · rw [if_pos hmem] at hsome
    cases hsome
  · rw [if_neg hmem] at hsome
    have hrow : t.2.1 = d := by
      rw [← Option.some.inj hsome]
    rw [hrow]
    exact ⟨hd, hmem⟩

/-- A process's global slaves all appear in the allgathered global slave
list. -/
theorem globSlaves_subset_allSlaves {ps : List Proc} {p : Proc} (hp : p ∈ ps) :
    ∀ g ∈ globSlaves p, g ∈ allSlaves ps := fun g hg =>
  List.mem_flatten.mpr ⟨globSlaves p, List.mem_map_of_mem _ hp, hg⟩

/-- Membership in the allgathered global slave list. -/
theorem mem_allSlaves {ps : List Proc} {g : Nat} :
    g ∈ allSlaves ps ↔ ∃ p ∈ ps, g ∈ globSlaves p := by
  simp [allSlaves]

/-- In a sum over disjoint processes, only the owner of row `r` can
contribute to row `r`. -/
theorem sum_entry_owner (T : Proc → List (ℚ × Nat × Nat)) (r c : Nat)
    (l : List Proc)
    (hpw : List.Pairwise (fun a b => ∀ d ∈ globalDofs a, d ∉ globalDofs b) l)
    (hrows : ∀ q ∈ l, ∀ t ∈ T q, t.2.1 ∈ globalDofs q)
    (p : Proc) (hp : p ∈ l) (hr : r ∈ globalDofs p) :
    (l.map fun q => entrySum (T q) r c).sum = entrySum (T p) r c := by
  induction l with
  | nil => cases hp
  | cons a t ih =>
    have hdisj := (List.pairwise_cons.mp hpw).1
    have hpw' := (List.pairwise_cons.mp hpw).2
    have hrows' : ∀ q ∈ t, ∀ tr ∈ T q, tr.2.1 ∈ globalDofs q :=
      fun q hq => hrows q (List.mem_cons_of_mem a hq)
    rcases List.mem_cons.mp hp with rfl | hpt
    · have tz : (t.map fun q => entrySum (T q) r c).sum = 0 := by
        apply List.sum_eq_zero
        intro y hy
        rcases List.mem_map.mp hy with ⟨q, hq, rfl⟩
        refine entrySum_eq_zero (fun tr htr hEq => ?_) c
        exact hdisj q hq r hr (hEq ▸ hrows q (List.mem_cons_of_mem p hq) tr htr)
      simp [tz]
    · have ha : entrySum (T a) r c = 0 := by
        refine entrySum_eq_zero (fun tr htr hEq => ?_) c
        have hra : r ∈ globalDofs a := hEq ▸ hrows a (List.mem_cons_self a t) tr htr
        exact hdisj p hpt r hra hr
      simp only [List.map_cons, List.sum_cons, ha, zero_add]
      exact ih hpw' hrows' hpt

/-- The gathered matrix entry, decomposed as the sum of per-process
contributions. -/
theorem K_entry_eq_sum (ps : List Proc) (r c : Nat) :
    K_entry ps r c = (ps.map fun q => entrySum (procTriples ps q) r c).sum := by
  rw [K_entry, allTriples, entrySum_flatten, List.map_map]
  rfl

/-- Rows contributed by a process all lie in its owned dof range (given
locally-owned slaves). -/
theorem procTriples_row_owned {ps : List Proc}
    (hso : ∀ p ∈ ps, ∀ g ∈ globSlaves p, g ∈ globalDofs p) :
    ∀ q ∈ ps, ∀ t ∈ procTriples ps q, t.2.1 ∈ globalDofs q := by
  intro q hq t ht
  rcases List.mem_append.mp ht with hts | hti
  · exact hso q hq _ (slaveTriples_row hts)
  · exact (identityTriples_row hti).1

/-- Only the process owning global dof `r` contributes entries to row `r`. -/
theorem K_entry_eq_owner (ps : List Proc)
    (hpw : List.Pairwise (fun p q => ∀ d ∈ globalDofs p, d ∉ globalDofs q) ps)
    (hso : ∀ p ∈ ps, ∀ g ∈ globSlaves p, g ∈ globalDofs p)
    (p : Proc) (hp : p ∈ ps) (r : Nat) (hr : r ∈ globalDofs p) (c : Nat) :
    K_entry ps r c = entrySum (procTriples ps p) r c := by
  rw [K_entry_eq_sum]
  exact sum_entry_owner (procTriples ps) r c ps hpw (procTriples_row_owned hso) p hp hr

/-- The owned dof list is duplicate-free. -/
theorem globalDofs_nodup (p : Proc) : (globalDofs p).Nodup := by
  rw [globalDofs]
  exact List.nodup_range' _ _

/-- Identity contribution of the owner at a non-slave row: exactly one
entry, the value 1 at the shifted column. -/
theorem entrySum_identity_nonslave (ps : List Proc) (p : Proc) (r : Nat)
    (hr : r ∈ globalDofs p) (hns : r ∉ globSlaves p) (c : Nat) :
    entrySum (identityTriples ps p) r c = if c = shiftedCol ps r then 1 else 0 :=
  entrySum_filterMap_ite (fun d => d - countBelow ps d) (fun d => d ∈ globSlaves p)
    (globalDofs p) (globalDofs_nodup p) r hr hns c

/-- A process emits no identity entry on one of its slave rows. -/
theorem entrySum_identity_slave (ps : List Proc) (p : Proc) (r : Nat)
    (hrs : r ∈ globSlaves p) (c : Nat) :
    entrySum (identityTriples ps p) r c = 0 :=
  entrySum_eq_zero (fun t ht hEq => (identityTriples_row ht).2 (by rw [hEq]; exact hrs)) c

/-- A process emits no slave entry on a row that is not one of its slave
rows. -/
theorem entrySum_slave_notmem (ps : List Proc) (p : Proc) (r : Nat)
    (h : r ∉ globSlaves p) (c : Nat) :
    entrySum (slaveTriples ps p) r c = 0 :=
  entrySum_eq_zero (fun t ht hEq => h (by rw [← hEq]; exact slaveTriples_row ht)) c

/-- Entry sum of a triple list whose rows are all the constant `row`. -/
theorem entrySum_map_const_row {β : Type} (l : List β) (val : β → ℚ) (row : Nat)
    (col : β → Nat) (r c : Nat) :
    entrySum (l.map fun b => (val b, row, col b)) r c
      = if row = r then ((l.filter fun b => col b == c).map val).sum else 0 := by
  induction l with
  | nil => simp [entrySum]
  | cons b t ih =>
    rw [List.map_cons, entrySum_cons, ih, List.filter_cons]
    by_cases hr : row = r
    · by_cases hc : col b = c
      · simp [hr, hc]
      · simp [hr, hc]
    · simp [hr]

/-- Slave contribution of the owner at one of its slave rows: the slave's
coefficients, summed per target column. -/
theorem entrySum_slave_row (ps : List Proc) (p : Proc)
    (hnd : (globSlaves p).Nodup) (s : Nat)
    (hs : s ∈ p.slaves.take p.numLocalSlaves) (c : Nat) :
    entrySum (slaveTriples ps p) (globOf p s) c = masterColSum ps p s c := by
  rw [slaveTriples, globSlaves, zip_self_map, List.map_map, entrySum_flatten,
    List.map_map]
  have hcongr :
      (p.slaves.take p.numLocalSlaves).map
          ((fun l => entrySum l (globOf p s) c) ∘
            ((fun sg : Nat × Nat =>
                (mastersOf p sg.1).map fun mc => (mc.2, sg.2, mc.1 - countBelow ps mc.1)) ∘
              fun x => (x, globOf p x)))
        = (p.slaves.take p.numLocalSlaves).map
            fun x => if globOf p x = globOf p s then masterColSum ps p x c else 0 := by
    apply List.map_congr_left
    intro x _
    simp only [Function.comp]
    exact entrySum_map_const_row (mastersOf p x) (fun mc => mc.2) (globOf p x)
      (fun mc => mc.1 - countBelow ps mc.1) (globOf p s) c
  rw [hcongr]
  exact sum_ite_unique (globOf p) (fun x => masterColSum ps p x c)
    (p.slaves.take p.numLocalSlaves) hnd s hs

/-- A process's triples all appear in the gathered triple list. -/
theorem mem_allTriples_of_proc {ps : List Proc} {p : Proc} {t : ℚ × Nat × Nat}
    (hp : p ∈ ps) (ht : t ∈ procTriples ps p) : t ∈ allTriples ps :=
  List.mem_flatten.mpr ⟨procTriples ps p, List.mem_map_of_mem _ hp, ht⟩

/-- An owned non-slave dof receives its identity triple. -/
theorem identity_triple_mem {ps : List Proc} {p : Proc} {d : Nat}
    (hd : d ∈ globalDofs p) (hnd : d ∉ globSlaves p) :
    ((1 : ℚ), d, d - countBelow ps d) ∈ identityTriples ps p :=
  List.mem_filterMap.mpr ⟨d, hd, by rw [if_neg hnd]⟩

/-- Characterization of a process's slave triples. -/
theorem mem_slaveTriples {ps : List Proc} {p : Proc} {t : ℚ × Nat × Nat} :
    t ∈ slaveTriples ps p ↔
      ∃ s ∈ p.slaves.take p.numLocalSlaves, ∃ mc ∈ mastersOf p s,
        t = (mc.2, globOf p s, mc.1 - countBelow ps mc.1) := by
  rw [slaveTriples, globSlaves, zip_self_map, List.map_map]
  constructor
  · intro ht
    rcases List.mem_flatten.mp ht with ⟨l, hl, htl⟩
    rcases List.mem_map.mp hl with ⟨s, hsl, rfl⟩
    rcases List.mem_map.mp htl with ⟨mc, hmc, rfl⟩
    exact ⟨s, hsl, mc, hmc, rfl⟩
  · rintro ⟨s, hsl, mc, hmc, rfl⟩
    refine List.mem_flatten.mpr ⟨_, List.mem_map_of_mem _ hsl, ?_⟩
    exact List.mem_map_of_mem _ hmc

/-- Every global slave index is below the global dof count. -/
theorem allSlaves_lt {ps : List Proc} {N : Nat}
    (hdofs : ∀ p ∈ ps, ∀ d ∈ globalDofs p, d < N)
    (hso : ∀ p ∈ ps, ∀ g ∈ globSlaves p, g ∈ globalDofs p) :
    ∀ g ∈ allSlaves ps, g < N := by
  intro g hg
  rcases mem_allSlaves.mp hg with ⟨p, hp, hgp⟩
  exact hdofs p hp g (hso p hp g hgp)

/-- A global slave owned by a process is one of that process's local
slaves: slave ownership plus disjoint owned ranges identify the recording
process with the owner. -/
theorem slave_of_owner {ps : List Proc}
    (hpw : List.Pairwise (fun p q => ∀ d ∈ globalDofs p, d ∉ globalDofs q) ps)
    (hso : ∀ p ∈ ps, ∀ g ∈ globSlaves p, g ∈ globalDofs p)
    {q : Proc} (hq : q ∈ ps) {d : Nat} (hd : d ∈ globalDofs q)
    (hds : d ∈ allSlaves ps) : d ∈ globSlaves q := by
  rcases mem_allSlaves.mp hds with ⟨q2, hq2, hdq2⟩
  have hd2 : d ∈ globalDofs q2 := hso q2 hq2 d hdq2
  by_cases hqq : q = q2
  · rw [hqq]
    exact hdq2
  · exfalso
    have hsym : Symmetric (fun a b : Proc => ∀ x ∈ globalDofs a, x ∉ globalDofs b) :=
      fun a b hab x hxb hxa => hab x hxa hxb
    exact (hpw.forall hsym hq hq2 hqq) d hd hd2

/-- The shifted column of a non-slave dof is at most `N - S - 1`. -/
theorem shiftedCol_le {ps : List Proc} {N : Nat}
    (hnd : (allSlaves ps).Nodup) (hlt : ∀ g ∈ allSlaves ps, g < N)
    {d : Nat} (hd : d < N) (hds : d ∉ allSlaves ps) :
    shiftedCol ps d ≤ N - (allSlaves ps).length - 1 := by
  have hcard : (allSlaves ps).toFinset.card = (allSlaves ps).length :=
    List.toFinset_card_of_nodup hnd
  have hcb : countBelow ps d = ((allSlaves ps).toFinset.filter fun s => s < d).card := by
    rw [countBelow, List.countP_eq_length_filter,
      ← List.toFinset_card_of_nodup (hnd.filter _), List.toFinset_filter]
    simp
  have hsplit : ((allSlaves ps).toFinset.filter fun s => s < d).card +
      ((allSlaves ps).toFinset.filter fun s => ¬ s < d).card
        = (allSlaves ps).toFinset.card :=
    Finset.filter_card_add_filter_neg_card_eq_card (fun s => s < d)
  have h2 : ((allSlaves ps).toFinset.filter fun s => ¬ s < d) ⊆ Finset.Ico (d + 1) N := by
    intro x hx
    obtain ⟨hxE, hxge⟩ := Finset.mem_filter.mp hx
    have hxs : x ∈ allSlaves ps := List.mem_toFinset.mp hxE
    have hxd : x ≠ d := fun hh => hds (hh ▸ hxs)
    have hxN : x < N := hlt x hxs
    exact Finset.mem_Ico.mpr ⟨by omega, hxN⟩
  have h2c : ((allSlaves ps).toFinset.filter fun s => ¬ s < d).card ≤ N - (d + 1) := by
    have := Finset.card_le_card h2
    simpa [Nat.card_Ico] using this
  have h1c : ((allSlaves ps).toFinset.filter fun s => s < d).card ≤ d := by
    have hsub : ((allSlaves ps).toFinset.filter fun s => s < d) ⊆ Finset.range d := by
      intro x hx
      exact Finset.mem_range.mpr (Finset.mem_filter.mp hx).2
    simpa using Finset.card_le_card hsub
  rw [shiftedCol, hcb]
  omega

/-- The shifted column of the greatest non-slave dof is exactly
`N - S - 1`. -/
theorem shiftedCol_max {ps : List Proc} {N : Nat}
    (hnd : (allSlaves ps).Nodup) (hlt : ∀ g ∈ allSlaves ps, g < N)
    {d : Nat} (hd : d < N) (hds : d ∉ allSlaves ps)
    (hmax : ∀ x, d < x → x < N → x ∈ allSlaves ps) :
    shiftedCol ps d = N - (allSlaves ps).length - 1 := by
  have hcard : (allSlaves ps).toFinset.card = (allSlaves ps).length :=
    List.toFinset_card_of_nodup hnd
  have hcb : countBelow ps d = ((allSlaves ps).toFinset.filter fun s => s < d).card := by
    rw [countBelow, List.countP_eq_length_filter,
      ← List.toFinset_card_of_nodup (hnd.filter _), List.toFinset_filter]
    simp
  have hsplit : ((allSlaves ps).toFinset.filter fun s => s < d).card +
      ((allSlaves ps).toFinset.filter fun s => ¬ s < d).card
        = (allSlaves ps).toFinset.card :=
    Finset.filter_card_add_filter_neg_card_eq_card (fun s => s < d)
  have h2eq : ((allSlaves ps).toFinset.filter fun s => ¬ s < d) = Finset.Ico (d + 1) N := by
    apply Finset.Subset.antisymm
    · intro x hx
      obtain ⟨hxE, hxge⟩ := Finset.mem_filter.mp hx
      have hxs : x ∈ allSlaves ps := List.mem_toFinset.mp hxE
      have hxd : x ≠ d := fun hh => hds (hh ▸ hxs)
      have hxN : x < N := hlt x hxs
      exact Finset.mem_Ico.mpr ⟨by omega, hxN⟩
    · intro x hx
      obtain ⟨hx1, hx2⟩ := Finset.mem_Ico.mp hx
      have hxs : x ∈ allSlaves ps := hmax x (by omega) hx2
      exact Finset.mem_filter.mpr ⟨List.mem_toFinset.mpr hxs, by omega⟩
  have h2c : ((allSlaves ps).toFinset.filter fun s => ¬ s < d).card = N - (d + 1) := by
    rw [h2eq, Nat.card_Ico]
  have h1c : ((allSlaves ps).toFinset.filter fun s => s < d).card ≤ d := by
    have hsub : ((allSlaves ps).toFinset.filter fun s => s < d) ⊆ Finset.range d := by
      intro x hx
      exact Finset.mem_range.mpr (Finset.mem_filter.mp hx).2
    simpa using Finset.card_le_card hsub
  rw [shiftedCol, hcb]
  omega

/-- The global slave count is strictly below the global dof count when a
non-slave dof exists. -/
theorem allSlaves_length_lt {ps : List Proc} {N : Nat}
    (hnd : (allSlaves ps).Nodup) (hlt : ∀ g ∈ allSlaves ps, g < N)
    {d : Nat} (hd : d < N) (hds : d ∉ allSlaves ps) :
    (allSlaves ps).length < N := by
  have hcard : (allSlaves ps).toFinset.card = (allSlaves ps).length :=
    List.toFinset_card_of_nodup hnd
  have hsub : (allSlaves ps).toFinset ⊆ (Finset.range N).erase d := by
    intro x hx
    have hxs : x ∈ allSlaves ps := List.mem_toFinset.mp hx
    have hxd : x ≠ d := fun hh => hds (hh ▸ hxs)
    exact Finset.mem_erase.mpr ⟨hxd, Finset.mem_range.mpr (hlt x hxs)⟩
  have := Finset.card_le_card hsub
  rw [Finset.card_erase_of_mem (Finset.mem_range.mpr hd), Finset.card_range] at this
  omega

/-- There is a greatest non-slave dof below `N`. -/
theorem exists_max_nonslave {ps : List Proc} {N : Nat}
    {d0 : Nat} (hd0N : d0 < N) (hd0s : d0 ∉ allSlaves ps) :
    ∃ d, d < N ∧ d ∉ allSlaves ps ∧ ∀ x, d < x → x < N → x ∈ allSlaves ps := by
  have hne : ((Finset.range N).filter fun x => x ∉ allSlaves ps).Nonempty :=
    ⟨d0, Finset.mem_filter.mpr ⟨Finset.mem_range.mpr hd0N, hd0s⟩⟩
  refine ⟨((Finset.range N).filter fun x => x ∉ allSlaves ps).max' hne, ?_, ?_, ?_⟩
  · have h1 := Finset.max'_mem _ hne
    exact Finset.mem_range.mp (Finset.mem_filter.mp h1).1
  · have h1 := Finset.max'_mem _ hne
    exact (Finset.mem_filter.mp h1).2
  · intro x hdx hxN
    by_contra hxs
    have hxF : x ∈ (Finset.range N).filter fun x => x ∉ allSlaves ps :=
      Finset.mem_filter.mpr ⟨Finset.mem_range.mpr hxN, hxs⟩
    have hle := Finset.le_max' _ x hxF
    omega

/-- The fold of `max` over a list is bounded by any upper bound. -/
theorem foldr_max_le (l : List Nat) (m : Nat) (h : ∀ x ∈ l, x ≤ m) :
    l.foldr max 0 ≤ m := by
  induction l with
  | nil => simp
  | cons a t ih =>
    have ha := h a (List.mem_cons_self a t)
    have ht := ih fun x hx => h x (List.mem_cons_of_mem a hx)
    simp only [List.foldr_cons]
    omega

/-- The fold of `max` over a list attaining its upper bound equals it. -/
theorem foldr_max_eq (l : List Nat) (m : Nat) (hub : ∀ x ∈ l, x ≤ m)
    (hm : m ∈ l) : l.foldr max 0 = m := by
  induction l with
  | nil => cases hm
  | cons a t ih =>
    rcases List.mem_cons.mp hm with rfl | hmt
    · have h1 := foldr_max_le t m fun x hx => hub x (List.mem_cons_of_mem m hx)
      simp only [List.foldr_cons]
      omega
    · have ha := hub a (List.mem_cons_self a t)
      have h1 := ih (fun x hx => hub x (List.mem_cons_of_mem a hx)) hmt
      simp only [List.foldr_cons]
      omega

/-- All gathered rows are valid global dofs. -/
theorem allTriples_row_lt {ps : List Proc} {N : Nat}
    (hdofs : ∀ p ∈ ps, ∀ d ∈ globalDofs p, d < N)
    (hso : ∀ p ∈ ps, ∀ g ∈ globSlaves p, g ∈ globalDofs p) :
    ∀ t ∈ allTriples ps, t.2.1 < N := by
  intro t ht
  rcases List.mem_flatten.mp ht with ⟨l, hl, htl⟩
  rcases List.mem_map.mp hl with ⟨q, hq, rfl⟩
  exact hdofs q hq _ (procTriples_row_owned hso q hq t htl)

/-- All gathered columns are at most `N - S - 1`: identity columns are
shifted non-slave owned dofs, slave-entry columns are shifted non-slave
masters. -/
theorem allTriples_col_le {ps : List Proc} {N : Nat}
    (hdofs : ∀ p ∈ ps, ∀ d ∈ globalDofs p, d < N)
    (hpw : List.Pairwise (fun p q => ∀ d ∈ globalDofs p, d ∉ globalDofs q) ps)
    (hnd : (allSlaves ps).Nodup)
    (hso : ∀ p ∈ ps, ∀ g ∈ globSlaves p, g ∈ globalDofs p)
    (hmv : ∀ p ∈ ps, ∀ s ∈ p.slaves.take p.numLocalSlaves,
      ∀ mc ∈ mastersOf p s, mc.1 < N ∧ mc.1 ∉ allSlaves ps) :
    ∀ t ∈ allTriples ps, t.2.2 ≤ N - (allSlaves ps).length - 1 := by
  have hlt := allSlaves_lt hdofs hso
  intro t ht
  rcases List.mem_flatten.mp ht with ⟨l, hl, htl⟩
  rcases List.mem_map.mp hl with ⟨q, hq, rfl⟩
  rcases List.mem_append.mp htl with hts | hti
  · rcases mem_slaveTriples.mp hts with ⟨s, hsmem, mc, hmc, rfl⟩
    obtain ⟨hmN, hms⟩ := hmv q hq s hsmem mc hmc
    exact shiftedCol_le hnd hlt hmN hms
  · rcases List.mem_filterMap.mp hti with ⟨d, hd, hsome⟩
    by_cases hmem : d ∈ globSlaves q
    · rw [if_pos hmem] at hsome
      cases hsome
    · rw [if_neg hmem] at hsome
      have hcol : t.2.2 = d - countBelow ps d := by
        rw [← Option.some.inj hsome]
      have hdN : d < N := hdofs q hq d hd
      have hdns : d ∉ allSlaves ps := fun hda =>
        hmem (slave_of_owner hpw hso hq hd hda)
      rw [hcol]
      exact shiftedCol_le hnd hlt hdN hdns

/-- The gathered matrix has one row per global dof. -/
theorem K_rows_eq {ps : List Proc} {N : Nat} (h : ProcWF ps N) : K_rows ps = N := by
  obtain ⟨hcov, hdofs, hpw, hnd, hso, hmv, hmne, d0, hd0N, hd0s⟩ := h
  have hN : 0 < N := by omega
  obtain ⟨p, hp, hNp⟩ := hcov (N - 1) (by omega)
  have hexist : ∃ t ∈ allTriples ps, t.2.1 = N - 1 := by
    by_cases hsl : N - 1 ∈ globSlaves p
    · rcases List.mem_map.mp hsl with ⟨s, hsmem, hgs⟩
      obtain ⟨mc, hmc⟩ := List.exists_mem_of_ne_nil _ (hmne p hp s hsmem)
      refine ⟨(mc.2, globOf p s, mc.1 - countBelow ps mc.1),
        mem_allTriples_of_proc hp
          (List.mem_append_left _ (mem_slaveTriples.mpr ⟨s, hsmem, mc, hmc, rfl⟩)), ?_⟩
      exact hgs
    · exact ⟨((1 : ℚ), N - 1, (N - 1) - countBelow ps (N - 1)),
        mem_allTriples_of_proc hp (List.mem_append_right _ (identity_triple_mem hNp hsl)),
        rfl⟩
  obtain ⟨t0, ht0, ht0r⟩ := hexist
  have hne : allTriples ps ≠ [] := List.ne_nil_of_mem ht0
  rw [K_rows, if_neg hne]
  have hmax : (((allTriples ps).map fun t => t.2.1).foldr max 0) = N - 1 := by
    apply foldr_max_eq
    · intro x hx
      rcases List.mem_map.mp hx with ⟨t, ht, rfl⟩
      have := allTriples_row_lt hdofs hso t ht
      omega
    · rw [← ht0r]
      exact List.mem_map_of_mem _ ht0
  omega

/-- The gathered matrix has `N - S` columns. -/
theorem K_cols_eq {ps : List Proc} {N : Nat} (h : ProcWF ps N) :
    K_cols ps = N - (allSlaves ps).length := by
  obtain ⟨hcov, hdofs, hpw, hnd, hso, hmv, hmne, d0, hd0N, hd0s⟩ := h
  have hlt := allSlaves_lt hdofs hso
  have hS : (allSlaves ps).length < N := allSlaves_length_lt hnd hlt hd0N hd0s
  obtain ⟨dm, hdmN, hdms, hdmax⟩ := exists_max_nonslave hd0N hd0s
  obtain ⟨p, hp, hdmp⟩ := hcov dm hdmN
  have hnsp : dm ∉ globSlaves p := fun hh => hdms (globSlaves_subset_allSlaves hp dm hh)
  have htmem := mem_allTriples_of_proc hp
    (List.mem_append_right _ (identity_triple_mem hdmp hnsp))
  have hcolval : dm - countBelow ps dm = N - (allSlaves ps).length - 1 :=
    shiftedCol_max hnd hlt hdmN hdms hdmax
  have hne : allTriples ps ≠ [] := List.ne_nil_of_mem htmem
  rw [K_cols, if_neg hne]
  have hmax : (((allTriples ps).map fun t => t.2.2).foldr max 0)
      = N - (allSlaves ps).length - 1 := by
    apply foldr_max_eq
    · intro x hx
      rcases List.mem_map.mp hx with ⟨t, ht, rfl⟩
      exact allTriples_col_le hdofs hpw hnd hso hmv t ht
    · rw [← hcolval]
      exact List.mem_map_of_mem _ htmem
  omega

/-- Entries of a non-slave row: a single 1 at the shifted diagonal
position. -/
theorem K_entry_nonslave_row {ps : List Proc} {N : Nat} (h : ProcWF ps N)
    {r : Nat} (hrN : r < N) (hrs : r ∉ allSlaves ps) (c : Nat) :
    K_entry ps r c = if c = shiftedCol ps r then 1 else 0 := by
  obtain ⟨hcov, hdofs, hpw, hnd, hso, hmv, hmne, hex⟩ := h
  obtain ⟨p, hp, hr⟩ := hcov r hrN
  rw [K_entry_eq_owner ps hpw hso p hp r hr c]
  have hnsp : r ∉ globSlaves p := fun hh => hrs (globSlaves_subset_allSlaves hp r hh)
  rw [procTriples, entrySum_append, entrySum_slave_notmem ps p r hnsp c,
    entrySum_identity_nonslave ps p r hr hnsp c, zero_add]

/-- Entries of a slave row: the slave's master coefficients summed at
their shifted columns. -/
theorem K_entry_slave_row {ps : List Proc} {N : Nat} (h : ProcWF ps N)
    {p : Proc} (hp : p ∈ ps) {s : Nat}
    (hs : s ∈ p.slaves.take p.numLocalSlaves) (c : Nat) :
    K_entry ps (globOf p s) c = masterColSum ps p s c := by
  obtain ⟨hcov, hdofs, hpw, hnd, hso, hmv, hmne, hex⟩ := h
  have hgs : globOf p s ∈ globSlaves p := List.mem_map_of_mem _ hs
  have hr : globOf p s ∈ globalDofs p := hso p hp _ hgs
  have hndp : (globSlaves p).Nodup :=
    hnd.sublist (List.sublist_flatten_of_mem (List.mem_map_of_mem _ hp))
  rw [K_entry_eq_owner ps hpw hso p hp _ hr c]
  rw [procTriples, entrySum_append, entrySum_slave_row ps p hndp s hs c,
    entrySum_identity_slave ps p _ hgs c, add_zero]

/-- C2: for every finalized well-formed constraint over `N` global dofs with
`S` global slaves, the gathered transformation matrix `K` has one row per
global dof and `N - S` columns; every non-slave row `r` carries a single
entry of value 1 at column `r` minus the count of slaves below `r`; and
every slave row carries, for each of the slave's (master, coefficient)
pairs, the coefficient at column master minus the count of slaves below
that master (pairs landing on equal columns are summed). -/
theorem C2_K_structure (ps : List Proc) (N : Nat) (h : ProcWF ps N) :
    K_rows ps = N ∧
    K_cols ps = N - (allSlaves ps).length ∧
    (∀ r, r < N → r ∉ allSlaves ps →
      K_entry ps r (shiftedCol ps r) = 1 ∧
      ∀ c, c ≠ shiftedCol ps r → K_entry ps r c = 0) ∧
    (∀ p ∈ ps, ∀ s ∈ p.slaves.take p.numLocalSlaves, ∀ c,
      K_entry ps (globOf p s) c = masterColSum ps p s c) := by
  refine ⟨K_rows_eq h, K_cols_eq h, ?_, ?_⟩
  · intro r hrN hrs
    constructor
    · rw [K_entry_nonslave_row h hrN hrs, if_pos rfl]
    · intro c hc
      rw [K_entry_nonslave_row h hrN hrs, if_neg hc]
  · intro p hp s hs c
    exact K_entry_slave_row h hp hs c

/-- Witness for C2: the example constraint satisfies the well-formedness
hypotheses, and the structure theorem applies to it. -/
theorem C2_K_structure_witness :
    ProcWF exPs 3 ∧
      (K_rows exPs = 3 ∧
      K_cols exPs = 3 - (allSlaves exPs).length ∧
      (∀ r, r < 3 → r ∉ allSlaves exPs →
        K_entry exPs r (shiftedCol exPs r) = 1 ∧
        ∀ c, c ≠ shiftedCol exPs r → K_entry exPs r c = 0) ∧
      (∀ p ∈ exPs, ∀ s ∈ p.slaves.take p.numLocalSlaves, ∀ c,
        K_entry exPs (globOf p s) c = masterColSum exPs p s c)) :=
  ⟨by unfold ProcWF; decide, C2_K_structure exPs 3 (by unfold ProcWF; decide)⟩

/-- Elementwise addition preserves a common length. -/
theorem addVec_length (xs ys : List ℚ) :
    (addVec xs ys).length = min xs.length ys.length := by
  simp [addVec]

/-- Elementwise addition adds entries (with default 0 past the end). -/
theorem addVec_getD (xs ys : List ℚ) (h : xs.length = ys.length) (i : Nat) :
    (addVec xs ys).getD i 0 = xs.getD i 0 + ys.getD i 0 := by
  by_cases hi : i < xs.length
  · have hiy : i < ys.length := by omega
    have hiz : i < (addVec xs ys).length := by
      rw [addVec_length]
      omega
    rw [List.getD_eq_getElem _ _ hiz, List.getD_eq_getElem _ _ hi,
      List.getD_eq_getElem _ _ hiy]
    simp [addVec]
  · have h1 : xs.length ≤ i := by omega
    have h2 : ys.length ≤ i := by omega
    have h3 : (addVec xs ys).length ≤ i := by
      rw [addVec_length]
      omega
    rw [List.getD_eq_default _ _ h1, List.getD_eq_default _ _ h2,
      List.getD_eq_default _ _ h3, add_zero]

/-- The fold of elementwise additions preserves the common length. -/
theorem foldl_addVec_length (n : Nat) (L : List (List ℚ))
    (hL : ∀ a ∈ L, a.length = n) :
    ∀ z : List ℚ, z.length = n → (L.foldl addVec z).length = n := by
  induction L with
  | nil =>
    intro z hz
    simpa using hz
  | cons a t ih =>
    intro z hz
    have ha := hL a (List.mem_cons_self a t)
    have hlen : (addVec z a).length = n := by
      rw [addVec_length]
      omega
    rw [List.foldl_cons]
    exact ih (fun x hx => hL x (List.mem_cons_of_mem a hx)) (addVec z a) hlen

/-- Entry `i` of the fold of elementwise additions is the sum of the
entries `i`. -/
theorem foldl_addVec_getD (n : Nat) (L : List (List ℚ))
    (hL : ∀ a ∈ L, a.length = n) :
    ∀ z : List ℚ, z.length = n → ∀ i : Nat,
      (L.foldl addVec z).getD i 0 = z.getD i 0 + (L.map fun a => a.getD i 0).sum := by
  induction L with
  | nil =>
    intro z hz i
    simp
  | cons a t ih =>
    intro z hz i
    have ha := hL a (List.mem_cons_self a t)
    have hlen : (addVec z a).length = n := by
      rw [addVec_length]
      omega
    rw [List.foldl_cons,
      ih (fun x hx => hL x (List.mem_cons_of_mem a hx)) (addVec z a) hlen i,
      addVec_getD z a (by omega) i, List.map_cons, List.sum_cons, add_assoc]

/-- One process's gather contribution has the global length. -/
theorem perProcArray_length (n : Nat) (q : VProc) : (perProcArray n q).length = n := by
  simp [perProcArray]

/-- One process's gather contribution holds its owned values on its owned
range and zero elsewhere. -/
theorem perProcArray_getD (n : Nat) (q : VProc) (i : Nat) (hin : i < n) :
    (perProcArray n q).getD i 0 =
      if q.lo ≤ i ∧ i < q.hi then q.arr.getD (i - q.lo) 0 else 0 := by
  have hi : i < (perProcArray n q).length := by
    rw [perProcArray_length]
    exact hin
  rw [List.getD_eq_getElem _ _ hi]
  simp [perProcArray]

/-- With pairwise-disjoint owned ranges, only the owner of index `i`
contributes to the elementwise sum at `i`. -/
theorem sum_perProc (n : Nat) (l : List VProc)
    (hpw : List.Pairwise (fun a b => b.hi ≤ a.lo ∨ a.hi ≤ b.lo) l)
    (q : VProc) (hq : q ∈ l) (i : Nat) (hlo : q.lo ≤ i) (hhi : i < q.hi)
    (hin : i < n) :
    (l.map fun a => (perProcArray n a).getD i 0).sum = q.arr.getD (i - q.lo) 0 := by
  induction l with
  | nil => cases hq
  | cons a t ih =>
    have hdisj := (List.pairwise_cons.mp hpw).1
    have hpw' := (List.pairwise_cons.mp hpw).2
    rcases List.mem_cons.mp hq with rfl | hqt
    · have tz : (t.map fun b => (perProcArray n b).getD i 0).sum = 0 := by
        apply List.sum_eq_zero
        intro y hy
        rcases List.mem_map.mp hy with ⟨b, hb, rfl⟩
        have hnb : ¬ (b.lo ≤ i ∧ i < b.hi) := by
          rcases hdisj b hb with hcase | hcase <;> omega
        rw [perProcArray_getD n b i hin, if_neg hnb]
      rw [List.map_cons, List.sum_cons, tz, add_zero,
        perProcArray_getD n q i hin, if_pos ⟨hlo, hhi⟩]
    · have hna : ¬ (a.lo ≤ i ∧ i < a.hi) := by
        rcases hdisj q hqt with hcase | hcase <;> omega
      rw [List.map_cons, List.sum_cons, perProcArray_getD n a i hin, if_neg hna,
        zero_add]
      exact ih hpw' hqt

/-- C6: on a well-formed distributed vector, `gather_PETScVector` returns
the full global array: it has the global length, recovers every process's
owned values at their global positions, and on the vector whose global
entry `i` equals `i` it returns exactly `[0, 1, ..., N-1]` (whatever the
partitioning; the result does not depend on the calling rank or on
`root`). -/
theorem C6_gather_vector (v : DVec) (root : Nat) (h : vecWF v) :
    (gather_PETScVector v root).length = v.size ∧
    (∀ q ∈ v.procs, ∀ i : Nat, q.lo ≤ i → i < q.hi →
      (gather_PETScVector v root).getD i 0 = q.arr.getD (i - q.lo) 0) ∧
    ((∀ q ∈ v.procs, ∀ j < q.arr.length, q.arr.getD j 0 = ((q.lo + j : Nat) : ℚ)) →
      gather_PETScVector v root = (List.range v.size).map (Nat.cast : Nat → ℚ)) := by
  obtain ⟨hq, hcov, hpw⟩ := h
  have hlens : ∀ a ∈ v.procs.map (perProcArray v.size), a.length = v.size := by
    intro a ha
    rcases List.mem_map.mp ha with ⟨b, _, rfl⟩
    exact perProcArray_length v.size b
  have hz : (List.replicate v.size (0 : ℚ)).length = v.size := by simp
  have hlen : (gather_PETScVector v root).length = v.size :=
    foldl_addVec_length v.size _ hlens _ hz
  have hpoint : ∀ q ∈ v.procs, ∀ i : Nat, q.lo ≤ i → i < q.hi →
      (gather_PETScVector v root).getD i 0 = q.arr.getD (i - q.lo) 0 := by
    intro q hqp i hlo hhi
    have hin : i < v.size := by
      have := (hq q hqp).2.1
      omega
    rw [gather_PETScVector, foldl_addVec_getD v.size _ hlens _ hz i, List.map_map]
    have hrep : (List.replicate v.size (0 : ℚ)).getD i 0 = 0 := by
      rw [List.getD_eq_getElem _ _ (by simpa using hin)]
      simp
    rw [hrep, zero_add]
    exact sum_perProc v.size v.procs hpw q hqp i hlo hhi hin
  refine ⟨hlen, hpoint, ?_⟩
  intro hvals
  apply List.ext_getElem
  · rw [hlen, List.length_map, List.length_range]
  · intro i h1 h2
    have hin : i < v.size := by
      rw [hlen] at h1
      exact h1
    obtain ⟨q, hqp, hlo, hhi⟩ := hcov i hin
    have harr : q.arr.length = q.hi - q.lo := (hq q hqp).2.2
    have hj : i - q.lo < q.arr.length := by omega
    have hval := hvals q hqp (i - q.lo) hj
    have hcast : ((q.lo + (i - q.lo) : Nat) : ℚ) = ((i : Nat) : ℚ) := by
      congr 1
      omega
    have hgoal : (gather_PETScVector v root)[i] = ((i : Nat) : ℚ) := by
      rw [← List.getD_eq_getElem _ 0 h1, hpoint q hqp i hlo hhi, hval, hcast]
    rw [hgoal]
    simp

/-- C10: the `root` argument of `gather_PETScVector` is never read: for any
two valid ranks the results coincide (the function allgathers and sums, so
every process computes the same full array). -/
theorem C10_gather_root_irrelevant (v : DVec) (r1 r2 : Nat)
    (h1 : r1 < v.procs.length) (h2 : r2 < v.procs.length) :
    gather_PETScVector v r1 = gather_PETScVector v r2 := rfl

/-- A concrete 4-entry vector, split over two processes, whose global entry
`i` holds the value `i`. -/
def exVec : DVec :=
  { size := 4
    procs := [{ lo := 0, hi := 2, arr := [0, 1] }, { lo := 2, hi := 4, arr := [2, 3] }] }

/-- Witness for C6: the concrete split vector is well-formed and gathers to
`[0, 1, 2, 3]` on every process. -/
theorem C6_gather_vector_witness :
    vecWF exVec ∧
      gather_PETScVector exVec 0 = (List.range 4).map (Nat.cast : Nat → ℚ) := by
  have hwf : vecWF exVec := by
    unfold vecWF
    refine ⟨?_, ?_, ?_⟩ <;> decide
  refine ⟨hwf, ?_⟩
  have hvals : ∀ q ∈ exVec.procs, ∀ j < q.arr.length,
      q.arr.getD j 0 = ((q.lo + j : Nat) : ℚ) := by
    intro q hq j hj
    fin_cases hq <;> simp only [List.length_cons, List.length_nil] at hj <;>
      interval_cases j <;> norm_num [List.getD]
  exact (C6_gather_vector exVec 0 hwf).2.2 hvals

/-- Witness for C10: the two valid ranks 0 and 1 of the concrete split
vector give the same gathered array. -/
theorem C10_gather_root_irrelevant_witness :
    gather_PETScVector exVec 0 = gather_PETScVector exVec 1 :=
  C10_gather_root_irrelevant exVec 0 1 (by decide) (by decide)

/-- An unfinalized constraint over the function space with object id 0. -/
def exUnfinalizedMPC : MPC := { finalized := false, spaceId := 0 }

/-- A finalized constraint over the function space with object id 7. -/
def exFinalizedMPC : MPC := { finalized := true, spaceId := 7 }

/-- C3 counterexample: constructing with an unfinalized constraint does fail
with InvalidState, but only after both forms have been compiled, so the
trace of observable side effects at the failure is not empty (the claim
asserts the failure precedes any observable side effect). -/
theorem C3_unfinalized_counterexample :
    (LinearProblem_init exUnfinalizedMPC none [] 0).2 = Except.error PError.invalidState ∧
    (LinearProblem_init exUnfinalizedMPC none [] 0).1 ≠ [] := by
  constructor
  · rfl
  · decide

/-- C3 amended: constructing a LinearProblem with an unfinalized constraint
fails with InvalidState, and the failure precedes any matrix, vector,
solver, or solution-function allocation; however the two form compilations
happen before the check, so the failure is not free of observable side
effects. -/
theorem C3_unfinalized_amended (mpc : MPC) (uArg : Option FemFunction)
    (bcs : List Nat) (alloc : Nat) (h : mpc.finalized = false) :
    (LinearProblem_init mpc uArg bcs alloc).2 = Except.error PError.invalidState ∧
    Effect.createMatrix ∉ (LinearProblem_init mpc uArg bcs alloc).1 ∧
    Effect.createVector ∉ (LinearProblem_init mpc uArg bcs alloc).1 ∧
    Effect.createSolver ∉ (LinearProblem_init mpc uArg bcs alloc).1 ∧
    Effect.createFunction ∉ (LinearProblem_init mpc uArg bcs alloc).1 ∧
    (LinearProblem_init mpc uArg bcs alloc).1
      = [Effect.compileForm, Effect.compileForm] := by
  refine ⟨?_, ?_, ?_, ?_, ?_, ?_⟩ <;> simp [LinearProblem_init, h]

/-- Witness for C3's amended statement at the concrete unfinalized
constraint. -/
theorem C3_unfinalized_amended_witness :
    exUnfinalizedMPC.finalized = false ∧
      ((LinearProblem_init exUnfinalizedMPC none [] 0).2
          = Except.error PError.invalidState ∧
        Effect.createMatrix ∉ (LinearProblem_init exUnfinalizedMPC none [] 0).1 ∧
        Effect.createVector ∉ (LinearProblem_init exUnfinalizedMPC none [] 0).1 ∧
        Effect.createSolver ∉ (LinearProblem_init exUnfinalizedMPC none [] 0).1 ∧
        Effect.createFunction ∉ (LinearProblem_init exUnfinalizedMPC none [] 0).1 ∧
        (LinearProblem_init exUnfinalizedMPC none [] 0).1
          = [Effect.compileForm, Effect.compileForm]) :=
  ⟨rfl, C3_unfinalized_amended exUnfinalizedMPC none [] 0 rfl⟩

/-- C4: with a finalized constraint, a caller-supplied solution function is
rejected with InvalidInput exactly when its space is not the constraint's
space; an accepted one becomes the instance's `u`; and omitting it creates
a fresh function over the constraint's space. -/
theorem C4_solution_field (mpc : MPC) (h : mpc.finalized = true)
    (bcs : List Nat) (alloc : Nat) :
    (∀ uf : FemFunction,
      ((LinearProblem_init mpc (some uf) bcs alloc).2
          = Except.error PError.invalidInput)
        ↔ uf.spaceId ≠ mpc.spaceId) ∧
    (∀ uf : FemFunction, uf.spaceId = mpc.spaceId →
      ∃ st : ProblemState,
        (LinearProblem_init mpc (some uf) bcs alloc).2 = Except.ok st ∧ st.u = uf) ∧
    (∃ st : ProblemState,
      (LinearProblem_init mpc none bcs alloc).2 = Except.ok st ∧
        st.u.spaceId = mpc.spaceId ∧ st.u.fid = alloc) := by
  refine ⟨?_, ?_, ?_⟩
  · intro uf
    constructor
    · intro herr
      by_contra hsp
      simp [LinearProblem_init, h, hsp] at herr
    · intro hsp
      simp [LinearProblem_init, h, hsp]
  · intro uf hsp
    refine ⟨mkState mpc uf bcs alloc, ?_, rfl⟩
    simp [LinearProblem_init, h, hsp]
  · refine ⟨mkState mpc ⟨mpc.spaceId, alloc⟩ bcs alloc, ?_, rfl, rfl⟩
    simp [LinearProblem_init, h]

/-- Witness for C4 at the concrete finalized constraint. -/
theorem C4_solution_field_witness :
    exFinalizedMPC.finalized = true ∧
      ((∀ uf : FemFunction,
        ((LinearProblem_init exFinalizedMPC (some uf) [] 0).2
            = Except.error PError.invalidInput)
          ↔ uf.spaceId ≠ exFinalizedMPC.spaceId) ∧
      (∀ uf : FemFunction, uf.spaceId = exFinalizedMPC.spaceId →
        ∃ st : ProblemState,
          (LinearProblem_init exFinalizedMPC (some uf) [] 0).2 = Except.ok st ∧
            st.u = uf) ∧
      (∃ st : ProblemState,
        (LinearProblem_init exFinalizedMPC none [] 0).2 = Except.ok st ∧
          st.u.spaceId = exFinalizedMPC.spaceId ∧ st.u.fid = 0)) :=
  ⟨rfl, C4_solution_field exFinalizedMPC rfl [] 0⟩

/-- C5: one `solve()` call performs, in order, matrix zeroing, constrained
matrix assembly with boundary conditions, matrix finalization, local vector
zeroing, constrained vector assembly, lifting, additive reverse scatter,
Dirichlet overwrite, the linear solve, forward scatter, and
back-substitution last; it returns the instance's own (mutated) solution
function. -/
theorem C5_solve_sequence (st : ProblemState) :
    (LinearProblem_solve st).2.1 =
      [Effect.zeroMatrixEntries, Effect.assembleMatrixMPC, Effect.finalizeMatrix,
        Effect.zeroVectorLocal, Effect.assembleVectorMPC, Effect.applyLifting,
        Effect.ghostUpdateAddReverse, Effect.setBCValues, Effect.solverSolve,
        Effect.scatterForward, Effect.backSubstitution] ∧
    (LinearProblem_solve st).2.2 = (LinearProblem_solve st).1.u ∧
    (LinearProblem_solve st).1.u = st.u ∧
    (LinearProblem_solve st).1.vals.uVal =
      SolVal.backSubstituted (SolVal.scattered (SolVal.solvedWith
        (MatVal.finalizedMat (MatVal.mpcAssembled (MatVal.zeroed st.vals.matVal)))
        (VecVal.bcValuesSet (VecVal.ghostAccumulated (VecVal.lifted
          (VecVal.mpcAssembled (VecVal.zeroedLocal st.vals.vecVal))))))) :=
  ⟨rfl, rfl, rfl, rfl⟩

/-- One `solve()` call leaves the matrix, vector and solver object ids and
the solution-function binding untouched. -/
theorem solveState_preserves (st : ProblemState) (n : Nat) :
    (solveState^[n] st).matId = st.matId ∧ (solveState^[n] st).vecId = st.vecId ∧
    (solveState^[n] st).solverId = st.solverId ∧ (solveState^[n] st).u = st.u := by
  induction n with
  | zero => exact ⟨rfl, rfl, rfl, rfl⟩
  | succ n ih =>
    rw [Function.iterate_succ_apply']
    exact ⟨ih.1, ih.2.1, ih.2.2.1, ih.2.2.2⟩

/-- C9: on a successfully constructed problem, any number of `solve()`
calls leaves the matrix, vector and solver handles the very objects
allocated at construction (ids drawn from the construction-time allocator),
and never rebinds the solution function. -/
theorem C9_handles_stable (mpc : MPC) (uArg : Option FemFunction)
    (bcs : List Nat) (alloc : Nat) (st : ProblemState)
    (h : (LinearProblem_init mpc uArg bcs alloc).2 = Except.ok st) :
    st.matId = alloc + 1 ∧ st.vecId = alloc + 2 ∧ st.solverId = alloc + 3 ∧
    ∀ n : Nat, (solveState^[n] st).matId = st.matId ∧
      (solveState^[n] st).vecId = st.vecId ∧
      (solveState^[n] st).solverId = st.solverId ∧
      (solveState^[n] st).u = st.u := by
  by_cases hf : mpc.finalized = false
  · simp [LinearProblem_init, hf] at h
  · cases uArg with
    | none =>
      simp [LinearProblem_init, hf] at h
      refine ⟨?_, ?_, ?_, fun n => solveState_preserves st n⟩ <;> rw [← h] <;> rfl
    | some uf =>
      by_cases hsp : uf.spaceId = mpc.spaceId
      · simp [LinearProblem_init, hf, hsp] at h
        refine ⟨?_, ?_, ?_, fun n => solveState_preserves st n⟩ <;> rw [← h] <;> rfl
      · simp [LinearProblem_init, hf, hsp] at h

/-- Witness for C9 at a concrete construction and two solves. -/
theorem C9_handles_stable_witness :
    (LinearProblem_init exFinalizedMPC none [] 0).2
        = Except.ok (mkState exFinalizedMPC ⟨7, 0⟩ [] 0) ∧
      ((mkState exFinalizedMPC ⟨7, 0⟩ [] 0).matId = 1 ∧
        (mkState exFinalizedMPC ⟨7, 0⟩ [] 0).vecId = 2 ∧
        (mkState exFinalizedMPC ⟨7, 0⟩ [] 0).solverId = 3 ∧
        ∀ n : Nat,
          (solveState^[n] (mkState exFinalizedMPC ⟨7, 0⟩ [] 0)).matId
              = (mkState exFinalizedMPC ⟨7, 0⟩ [] 0).matId ∧
            (solveState^[n] (mkState exFinalizedMPC ⟨7, 0⟩ [] 0)).vecId
              = (mkState exFinalizedMPC ⟨7, 0⟩ [] 0).vecId ∧
            (solveState^[n] (mkState exFinalizedMPC ⟨7, 0⟩ [] 0)).solverId
              = (mkState exFinalizedMPC ⟨7, 0⟩ [] 0).solverId ∧
            (solveState^[n] (mkState exFinalizedMPC ⟨7, 0⟩ [] 0)).u
              = (mkState exFinalizedMPC ⟨7, 0⟩ [] 0).u) :=
  ⟨rfl, C9_handles_stable exFinalizedMPC none [] 0 (mkState exFinalizedMPC ⟨7, 0⟩ [] 0) rfl⟩

/-- C8: `get_assemblers` raises `RuntimeError` naming the two valid
choices for every unrecognized selector, skips (rather than failing) when
`numba` is requested but not installed, and returns the matching assembler
pair for a recognized available backend. -/
theorem C8_get_assemblers_cases :
    (∀ s : String, ∀ numbaInstalled : Bool, s ≠ "numba" → s ≠ "C++" →
      get_assemblers s numbaInstalled =
        AssemblerResult.errorUndefined
          ("Undefined assembler type: " ++ s ++ ".\nOptions are numba or C++")) ∧
    get_assemblers "numba" false = AssemblerResult.skipped ("Numba not installed") ∧
    get_assemblers "numba" true =
      AssemblerResult.assemblers AssemblerFn.numbaMatrix AssemblerFn.numbaVector ∧
    ∀ numbaInstalled : Bool, get_assemblers "C++" numbaInstalled =
      AssemblerResult.assemblers AssemblerFn.cppMatrix AssemblerFn.cppVector := by
  refine ⟨?_, rfl, rfl, fun _ => rfl⟩
  intro s b h1 h2
  simp [get_assemblers, h1, h2]

/-- Witness for C8 at a concrete unrecognized selector. -/
theorem C8_get_assemblers_witness :
    get_assemblers "petsc" true =
      AssemblerResult.errorUndefined
        ("Undefined assembler type: petsc.\nOptions are numba or C++") :=
  (C8_get_assemblers_cases.1 "petsc" true (by decide) (by decide)).trans (by rfl)

/-- Counting the complement predicate counts the rest of the list. -/
theorem countP_not_aux (p : Nat → Prop) [DecidablePred p] (l : List Nat) :
    l.countP (fun a => decide (¬ p a)) = l.length - l.countP (fun a => decide (p a)) := by
  simp only [decide_not]
  induction l with
  | nil => simp
  | cons a t ih =>
    have hle : t.countP (fun a => decide (p a)) ≤ t.length := List.countP_le_length _
    by_cases h : p a <;> simp [List.countP_cons, h, ih] <;> omega

/-- Membership count over the index range recovers the length of a
duplicate-free list of valid indices. -/
theorem countP_mem_range (S : List Nat) (hnd : S.Nodup) (N : Nat)
    (hlt : ∀ g ∈ S, g < N) :
    (List.range N).countP (fun c => decide (c ∈ S)) = S.length := by
  rw [List.countP_eq_length_filter,
    ← List.toFinset_card_of_nodup ((List.nodup_range N).filter _),
    List.toFinset_filter, ← List.toFinset_card_of_nodup hnd]
  congr 1
  apply Finset.Subset.antisymm
  · intro x hx
    have hx2 := (Finset.mem_filter.mp hx).2
    simp only [decide_eq_true_eq] at hx2
    exact List.mem_toFinset.mpr hx2
  · intro x hx
    have hxS := List.mem_toFinset.mp hx
    refine Finset.mem_filter.mpr ⟨?_, by simpa using hxS⟩
    have := hlt x hxS
    simp [List.mem_toFinset, List.mem_range]
    omega

/-- The non-slave column list has length `N - S`. -/
theorem colsExcept_length {ps : List Proc} {N : Nat}
    (hnd : (allSlaves ps).Nodup) (hlt : ∀ g ∈ allSlaves ps, g < N) :
    (colsExceptSlaves ps N).length = N - (allSlaves ps).length := by
  rw [colsExceptSlaves, ← List.countP_eq_length_filter,
    countP_not_aux (fun c => c ∈ allSlaves ps),
    countP_mem_range (allSlaves ps) hnd N hlt, List.length_range]

/-- The reduced reference vector has one entry per column of `K`. -/
theorem reduced_b_length (ps : List Proc) (borg : List ℚ) :
    (reduced_b ps borg).length = K_cols ps := by
  simp [reduced_b]

/-- `numpy.allclose` fails exactly when some aligned pair violates the
tolerance. -/
theorem allclose_eq_false_iff (xs ys : List ℚ) (h : xs.length = ys.length) :
    allclose xs ys = false ↔
      ∃ j, j < xs.length ∧
        atol_np + rtol_np * |ys.getD j 0| < |xs.getD j 0 - ys.getD j 0| := by
  rw [allclose]
  constructor
  · intro hfalse
    have hnall : ¬ ((xs.zip ys).all
        (fun ab => decide (|ab.1 - ab.2| ≤ atol_np + rtol_np * |ab.2|)) = true) := by
      rw [hfalse]
      simp
    rw [List.all_eq_true] at hnall
    push_neg at hnall
    obtain ⟨ab, hab, hpred⟩ := hnall
    obtain ⟨j, hj, hget⟩ := List.mem_iff_getElem.mp hab
    have hjx : j < xs.length := by
      rw [List.length_zip] at hj
      omega
    have hjy : j < ys.length := by
      rw [List.length_zip] at hj
      omega
    refine ⟨j, hjx, ?_⟩
    have hzip : (xs.zip ys)[j] = (xs[j], ys[j]) := by
      simp [List.getElem_zip]
    rw [hzip] at hget
    rw [← hget] at hpred
    simp only [ne_eq, decide_eq_true_eq, not_le] at hpred
    rw [List.getD_eq_getElem _ _ hjx, List.getD_eq_getElem _ _ hjy]
    exact hpred
  · rintro ⟨j, hjx, hpred⟩
    have hjy : j < ys.length := by omega
    have hj : j < (xs.zip ys).length := by
      rw [List.length_zip]
      omega
    rw [Bool.eq_false_iff]
    intro hall
    rw [List.all_eq_true] at hall
    have hmem : (xs.zip ys)[j] ∈ xs.zip ys := List.getElem_mem hj
    have hthis := hall _ hmem
    have hzip : (xs.zip ys)[j] = (xs[j], ys[j]) := by
      simp [List.getElem_zip]
    rw [hzip] at hthis
    simp only [decide_eq_true_eq] at hthis
    rw [List.getD_eq_getElem _ _ hjx, List.getD_eq_getElem _ _ hjy] at hpred
    exact absurd hthis (not_le.mpr hpred)

/-- The slave-entry check of `compare_MPC_RHS` fails exactly when some
slave entry exceeds the absolute tolerance. -/
theorem slave_allclose_false_iff (S : List Nat) (v : List ℚ) :
    allclose (S.map fun i => v.getD i 0) (List.replicate S.length 0) = false ↔
      ∃ i ∈ S, atol_np < |v.getD i 0| := by
  rw [allclose_eq_false_iff _ _ (by simp)]
  constructor
  · rintro ⟨j, hj, hgt⟩
    rw [List.length_map] at hj
    have hx : (S.map fun i => v.getD i 0).getD j 0 = v.getD (S.getD j 0) 0 := by
      rw [List.getD_eq_getElem _ _ (by simpa using hj), List.getElem_map,
        List.getD_eq_getElem _ _ hj]
    have hy : (List.replicate S.length (0 : ℚ)).getD j 0 = 0 := by
      rw [List.getD_eq_getElem _ _ (by simpa using hj)]
      simp
    rw [hx, hy] at hgt
    refine ⟨S.getD j 0, ?_, by simpa using hgt⟩
    rw [List.getD_eq_getElem _ _ hj]
    exact List.getElem_mem hj
  · rintro ⟨i, hi, hgt⟩
    obtain ⟨j, hj, hij⟩ := List.mem_iff_getElem.mp hi
    refine ⟨j, by simpa using hj, ?_⟩
    have hx : (S.map fun i => v.getD i 0).getD j 0 = v.getD i 0 := by
      rw [List.getD_eq_getElem _ _ (by simpa using hj), List.getElem_map, hij]
    have hy : (List.replicate S.length (0 : ℚ)).getD j 0 = 0 := by
      rw [List.getD_eq_getElem _ _ (by simpa using hj)]
      simp
    rw [hx, hy]
    simpa using hgt

/-- The reference check of `compare_MPC_RHS` fails exactly when some
non-slave position deviates from the reduced reference beyond the
`allclose` tolerance. -/
theorem cols_allclose_false_iff (C : List Nat) (v ref : List ℚ)
    (hlen : C.length = ref.length) :
    allclose (C.map fun i => v.getD i 0) ref = false ↔
      ∃ j, j < C.length ∧
        atol_np + rtol_np * |ref.getD j 0| <
          |v.getD (C.getD j 0) 0 - ref.getD j 0| := by
  rw [allclose_eq_false_iff _ _ (by simpa using hlen)]
  apply exists_congr
  intro j
  constructor
  · rintro ⟨hj, hgt⟩
    rw [List.length_map] at hj
    have hx : (C.map fun i => v.getD i 0).getD j 0 = v.getD (C.getD j 0) 0 := by
      rw [List.getD_eq_getElem _ _ (by simpa using hj), List.getElem_map,
        List.getD_eq_getElem _ _ hj]
    rw [hx] at hgt
    exact ⟨hj, hgt⟩
  · rintro ⟨hj, hgt⟩
    have hx : (C.map fun i => v.getD i 0).getD j 0 = v.getD (C.getD j 0) 0 := by
      rw [List.getD_eq_getElem _ _ (by simpa using hj), List.getElem_map,
        List.getD_eq_getElem _ _ hj]
    refine ⟨by simpa using hj, ?_⟩
    rw [hx]
    exact hgt

/-- C7 amended: on the root process, `compare_MPC_RHS` raises exactly when
some slave entry of the MPC vector exceeds `numpy.allclose`'s absolute
tolerance 1e-8 in magnitude, or some non-slave entry deviates from the
corresponding entry of Kᵗ·b_org by more than 1e-8 + 1e-5·|reference|
(the `allclose` defaults); otherwise it returns. -/
theorem C7_rhs_allclose_characterization (ps : List Proc) (N : Nat)
    (b_org b : DVec) (root : Nat) (h : ProcWF ps N) :
    compare_MPC_RHS ps N b_org b root = false ↔
      ((∃ i ∈ allSlaves ps,
          atol_np < |(gather_PETScVector b root).getD i 0|) ∨
        (∃ j, j < (colsExceptSlaves ps N).length ∧
          atol_np + rtol_np *
              |(reduced_b ps (gather_PETScVector b_org root)).getD j 0| <
            |(gather_PETScVector b root).getD ((colsExceptSlaves ps N).getD j 0) 0
              - (reduced_b ps (gather_PETScVector b_org root)).getD j 0|)) := by
  have hnd := h.2.2.2.1
  have hlt := allSlaves_lt h.2.1 h.2.2.2.2.1
  have hlen : (colsExceptSlaves ps N).length
      = (reduced_b ps (gather_PETScVector b_org root)).length := by
    rw [reduced_b_length, K_cols_eq h, colsExcept_length hnd hlt]
  simp only [compare_MPC_RHS]
  rw [Bool.and_eq_false_iff]
  exact or_congr (slave_allclose_false_iff _ _) (cols_allclose_false_iff _ _ _ hlen)

/-- Witness for C7's amended characterization at the 3-dof example
constraint with zero vectors. -/
theorem C7_rhs_allclose_characterization_witness :
    ProcWF exPs 3 ∧
      (compare_MPC_RHS exPs 3 zeroVec3 zeroVec3 0 = false ↔
        ((∃ i ∈ allSlaves exPs,
            atol_np < |(gather_PETScVector zeroVec3 0).getD i 0|) ∨
          (∃ j, j < (colsExceptSlaves exPs 3).length ∧
            atol_np + rtol_np *
                |(reduced_b exPs (gather_PETScVector zeroVec3 0)).getD j 0| <
              |(gather_PETScVector zeroVec3 0).getD
                  ((colsExceptSlaves exPs 3).getD j 0) 0
                - (reduced_b exPs (gather_PETScVector zeroVec3 0)).getD j 0|))) :=
  ⟨by unfold ProcWF; decide,
    C7_rhs_allclose_characterization exPs 3 zeroVec3 zeroVec3 0 (by unfold ProcWF; decide)⟩

/-- The gathered triples of the slave-free 2-dof constraint: the 2×2
identity. -/
theorem psNS_allTriples : allTriples psNS = [((1 : ℚ), 0, 0), (1, 1, 1)] := by
  simp [allTriples, psNS, procNS, procTriples, slaveTriples, identityTriples,
    globalDofs, globSlaves, mastersOf, countBelow, allSlaves, globOf, List.range']

/-- The slave-free constraint has no global slaves. -/
theorem psNS_slaves : allSlaves psNS = [] := by
  simp [allSlaves, psNS, procNS, globSlaves]

/-- All columns of the 2-dof index space survive slave removal. -/
theorem psNS_cols : colsExceptSlaves psNS 2 = [0, 1] := by
  simp [colsExceptSlaves, psNS_slaves, List.range_succ]

/-- The reference vector gathers to `[1, 0]`. -/
theorem gather_bOrgEx : gather_PETScVector bOrgEx 0 = [1, 0] := by
  simp [gather_PETScVector, bOrgEx, perProcArray, addVec, List.range_succ,
    List.getD]

/-- The deviated vector gathers to `[1 + 2e-8, 0]`. -/
theorem gather_bDevEx : gather_PETScVector bDevEx 0 = [1 + 2 / 100000000, 0] := by
  simp [gather_PETScVector, bDevEx, perProcArray, addVec, List.range_succ,
    List.getD]

/-- The reduced reference `Kᵗ·b_org` for the slave-free constraint is the
reference itself. -/
theorem reduced_ex : reduced_b psNS (gather_PETScVector bOrgEx 0) = [1, 0] := by
  rw [gather_bOrgEx]
  have hKr : K_rows psNS = 2 := by simp [K_rows, psNS_allTriples]
  have hKc : K_cols psNS = 2 := by simp [K_cols, psNS_allTriples]
  simp [reduced_b, hKr, hKc, K_entry, psNS_allTriples, entrySum, List.range_succ,
    List.getD]

/-- C7 counterexample: on the slave-free 2-dof constraint, the MPC vector
`[1 + 2e-8, 0]` deviates from `Kᵗ·b_org = [1, 0]` at the non-slave entry 0
by `2e-8`, strictly more than the absolute tolerance 1e-8, yet
`compare_MPC_RHS` returns without raising (`numpy.allclose`'s relative term
`1e-5 · |1|` absorbs the deviation).  The claim as stated says it must
raise. -/
theorem C7_rhs_tolerance_counterexample :
    compare_MPC_RHS psNS 2 bOrgEx bDevEx 0 = true ∧
    0 ∈ colsExceptSlaves psNS 2 ∧
    atol_np <
      |(gather_PETScVector bDevEx 0).getD ((colsExceptSlaves psNS 2).getD 0 0) 0
        - (reduced_b psNS (gather_PETScVector bOrgEx 0)).getD 0 0| := by
  refine ⟨?_, ?_, ?_⟩
  · simp only [compare_MPC_RHS]
    rw [psNS_slaves, gather_bDevEx, reduced_ex, psNS_cols]
    simp [allclose, atol_np, rtol_np, List.getD]
    rw [abs_of_nonneg (by norm_num : (0 : ℚ) ≤ 2 / 100000000)]
    norm_num
  · rw [psNS_cols]
    decide
  · rw [gather_bDevEx, reduced_ex, psNS_cols]
    simp [List.getD, atol_np]
    rw [abs_of_nonneg (by norm_num : (0 : ℚ) ≤ 2 / 100000000)]
    norm_num
